import Mathlib

/-!
Verification of the subject-tree (adaptive radix tree) repository.

Bytes are modelled as natural numbers and byte strings as `List Nat`.
Go slices `b[i:j]` become `seg b i j`; Go's in-place loops become
fuel-indexed recursions (the fuel is initialised large enough that the
exhaustion branch is never reached for the initial call).
-/

/-- Token separator byte, Go `tsep = '.'`. -/
def tsep : Nat := 46

/-- Partial wildcard byte, Go `pwc = '*'`. -/
def pwc : Nat := 42

/-- Full wildcard byte, Go `fwc = '>'`. -/
def fwc : Nat := 62

/-- Reserved no-pivot sentinel byte (DEL), Go `noPivot = 0x7F`. -/
def noPivot : Nat := 127

/-- Go slice `b[i:j]`. -/
def seg (b : List Nat) (i j : Nat) : List Nat := (b.drop i).take (j - i)

/-- Loop body of Go `genParts` (parts.go lines 17-55), as a fuel-indexed
recursion over the loop index `i`. `start` and `parts` are the mutable
locals of the Go loop; `e = len(filter)-1`. Each Go branch is translated
with its exact index arithmetic, including the skips of the wildcard byte
and of the token separator that follows a recognized wildcard. -/
def gpLoop (f : List Nat) : Nat → Nat → Nat → List (List Nat) → List (List Nat)
  | 0, _, _, parts => parts
  | fuel + 1, i, start, parts =>
    let e := f.length - 1
    if i < f.length then
      if f.getD i 0 = tsep then
        if i < e ∧ f.getD (i+1) 0 = pwc ∧ ((i+2 ≤ e ∧ f.getD (i+2) 0 = tsep) ∨ i+1 = e) then
          -- token followed by a pwc occupying a whole token
          let parts1 := if start < i then parts ++ [seg f start (i+1)] else parts
          let parts2 := parts1 ++ [seg f (i+1) (i+2)]
          if i + 3 ≤ e then gpLoop f fuel (i+3) (i+3) parts2
          else gpLoop f fuel (i+2) (i+2) parts2
        else if i < e ∧ f.getD (i+1) 0 = fwc ∧ i+1 = e then
          -- fwc at the very end
          let parts1 := if start < i then parts ++ [seg f start (i+1)] else parts
          let parts2 := parts1 ++ [seg f (i+1) (i+2)]
          gpLoop f fuel (i+2) (i+2) parts2
        else gpLoop f fuel (i+1) start parts
      else if f.getD i 0 = pwc ∨ f.getD i 0 = fwc then
        -- wildcard must start the filter or follow a tsep
        if i ≠ 0 ∧ f.getD (i-1) 0 ≠ tsep then gpLoop f fuel (i+1) start parts
        -- wildcard must end the filter or be followed by a non-final tsep
        else if i+1 = e ∨ (i+1 < e ∧ f.getD (i+1) 0 ≠ tsep) then gpLoop f fuel (i+1) start parts
        else
          let parts2 := parts ++ [seg f i (i+1)]
          if i+1 ≤ e then gpLoop f fuel (i+2) (i+2) parts2
          else gpLoop f fuel (i+1) (i+1) parts2
      else gpLoop f fuel (i+1) start parts
    else
      -- after the loop: emit the trailing literal, consuming one leading tsep
      if start < f.length then
        if f.getD start 0 = tsep then parts ++ [f.drop (start+1)]
        else parts ++ [f.drop start]
      else parts

/-- Go `genParts` (parts.go): split a filter subject into literal and
wildcard parts. -/
def genParts (f : List Nat) (parts : List (List Nat)) : List (List Nat) :=
  gpLoop f (f.length + 1) 0 0 parts

/-- Go `bytes.IndexByte(s, c)` (first index of `c`, or none). -/
def indexByte (s : List Nat) (c : Nat) : Option Nat :=
  s.findIdx? (fun b => b == c)

/-- Loop of Go `matchParts` (parts.go lines 81-133). `rem` is the suffix
`parts[i:]` of the original parts list and `si` the scan position in
`frag`. `some r` models the Go returns `(r, true)`; `none` models the
failure returns, which hand back the caller's original `parts` with
`false` (assembled in `matchParts` below). -/
def mpLoop (frag : List Nat) (si : Nat) : List (List Nat) → Option (List (List Nat))
  | [] => none
  | part :: rest =>
    let lf := frag.length
    if lf ≤ si then some (part :: rest)
    else
      let lp := part.length
      if lp = 1 ∧ part.getD 0 0 = pwc then
        match indexByte (frag.drop si) tsep with
        | none => if rest = [] then some [] else some (part :: rest)
        | some k => mpLoop frag (si + k + 1) rest
      else if lp = 1 ∧ part.getD 0 0 = fwc then some []
      else
        let e := min (si + lp) lf
        let cmp := if e < si + lp then part.take (e - si) else part
        if cmp = seg frag si e then
          if e < lf then mpLoop frag e rest
          else if e < si + lp then
            -- fragment exhausted inside the part: keep its unconsumed tail
            some (part.drop (lf - si) :: rest)
          else if rest = [] then some []
          else mpLoop frag (si + lp) rest
        else none

/-- Go `matchParts` (parts.go lines 72-135): match the filter parts
against a fragment (node prefix or leaf suffix), returning the remaining
parts and a success flag. -/
def matchParts (parts : List (List Nat)) (frag : List Nat) : List (List Nat) × Bool :=
  if frag.length = 0 then (parts, true)
  else
    match mpLoop frag 0 parts with
    | some r => (r, true)
    | none => (parts, false)

/-- Pointwise update of a Go array modelled as a function. -/
def setAt {β : Type} (f : Nat → β) (i : Nat) (v : β) : Nat → β :=
  fun j => if j = i then v else f j

/-!
The small node variants node4, node10 and node16 (node4 in match_test.go,
node10.go, node16.go) share their layout and the text of their methods;
they differ only in the capacity constant. They are embedded as one
structure indexed by the capacity, so `smallN 4 α` is node4, `smallN 10 α`
is node10 and `smallN 16 α` is node16. Child slots hold `Option α` where
`none` is Go's nil node; `α` stands for the subnodes, whose own shape
never matters to the node-level operations. `pfx` is the node prefix
(field `prefix` of `meta` in node.go).
-/
structure smallN (cap : Nat) (α : Type) where
  child : Nat → Option α
  key : Nat → Nat
  pfx : List Nat
  size : Nat

/-- `newNode4` / `newNode10` / `newNode16`: zeroed arrays, given prefix. -/
def newS (cap : Nat) {α : Type} (pfx : List Nat) : smallN cap α :=
  ⟨fun _ => none, fun _ => 0, pfx, 0⟩

/-- `addChild` of node4/node10/node16: append at position `size`.
Go panics when the node is full; that unreachable branch is modelled as
returning the node unchanged, and every theorem below only uses
`addChildS` below capacity. -/
def addChildS {cap : Nat} {α : Type} (n : smallN cap α) (c : Nat) (nn : Option α) :
    smallN cap α :=
  if cap ≤ n.size then n
  else { n with key := setAt n.key n.size c, child := setAt n.child n.size nn,
                size := n.size + 1 }

/-- `findChild` of node4/node10/node16: linear scan of the first `size`
keys. `some s` models the Go pointer to slot `s`; `none` is Go nil. -/
def findChildS {cap : Nat} {α : Type} (n : smallN cap α) (c : Nat) : Option (Option α) :=
  ((List.range n.size).find? (fun i => n.key i == c)).map n.child

/-- `iter` of node4/node10/node16 (loop over `i < size`, stop when the
callback answers false), embedded as the list of children the callback is
invoked on; `k` counts the remaining iterations `size - i`. -/
def iterSeq {α : Type} (child : Nat → Option α) (f : Option α → Bool) : Nat → Nat → List (Option α)
  | _, 0 => []
  | i, k + 1 => if f (child i) then child i :: iterSeq child f (i+1) k else [child i]

/-- `iter` of a small node. -/
def iterS {cap : Nat} {α : Type} (n : smallN cap α) (f : Option α → Bool) : List (Option α) :=
  iterSeq n.child f 0 n.size

/-- node48 (unnamed/part_002): dense child array plus a 256-entry
1-indexed dispatch table (`key c = 0` means no child for byte `c`). -/
structure node48Rep (α : Type) where
  child : Nat → Option α
  key : Nat → Nat
  pfx : List Nat
  size : Nat

/-- `newNode48`. -/
def newNode48 {α : Type} (pfx : List Nat) : node48Rep α :=
  ⟨fun _ => none, fun _ => 0, pfx, 0⟩

/-- `node48.addChild`: store at the next dense slot and record the
1-indexed position in the dispatch table. The Go panic branch on a full
node is modelled as returning the node unchanged. -/
def addChild48 {α : Type} (n : node48Rep α) (c : Nat) (nn : Option α) : node48Rep α :=
  if 48 ≤ n.size then n
  else { n with child := setAt n.child n.size nn, key := setAt n.key c (n.size + 1),
                size := n.size + 1 }

/-- `node48.findChild`. -/
def findChild48 {α : Type} (n : node48Rep α) (c : Nat) : Option (Option α) :=
  if n.key c = 0 then none else some (n.child (n.key c - 1))

/-- `node48.deleteChild`: swap-remove in the dense array and repair the
dispatch-table entry of the moved child by scanning for it. -/
def deleteChild48 {α : Type} (n : node48Rep α) (c : Nat) : node48Rep α :=
  if n.key c = 0 then n
  else
    let i := n.key c - 1
    let last := n.size - 1
    let n1 :=
      if i < last then
        let key1 :=
          match (List.range 256).find? (fun ic => n.key ic == last + 1) with
          | some ic => setAt n.key ic (i + 1)
          | none => n.key
        { n with child := setAt n.child i (n.child last), key := key1 }
      else n
    { n1 with child := setAt n1.child last none, key := setAt n1.key c 0,
              size := n.size - 1 }

/-- `node48.iter`: walk the 48 dense slots in array order, skipping nil
entries, stopping when the callback answers false. -/
def iterSkipSeq {α : Type} (child : Nat → Option α) (f : Option α → Bool) :
    Nat → Nat → List (Option α)
  | _, 0 => []
  | i, k + 1 =>
    match child i with
    | none => iterSkipSeq child f (i+1) k
    | some a => if f (some a) then some a :: iterSkipSeq child f (i+1) k else [some a]

/-- `node48.iter`. -/
def iter48 {α : Type} (n : node48Rep α) (f : Option α → Bool) : List (Option α) :=
  iterSkipSeq n.child f 0 48

/-- node256 (node256.go): children indexed directly by byte. -/
structure node256Rep (α : Type) where
  child : Nat → Option α
  pfx : List Nat
  size : Nat

/-- `newNode256`. -/
def newNode256 {α : Type} (pfx : List Nat) : node256Rep α :=
  ⟨fun _ => none, pfx, 0⟩

/-- `node256.addChild`: direct store at index `c`. -/
def addChild256 {α : Type} (n : node256Rep α) (c : Nat) (nn : Option α) : node256Rep α :=
  { n with child := setAt n.child c nn, size := n.size + 1 }

/-- `node256.findChild`. -/
def findChild256 {α : Type} (n : node256Rep α) (c : Nat) : Option (Option α) :=
  match n.child c with
  | some a => some (some a)
  | none => none

/-- `node256.iter`: all 256 byte slots in ascending order, skipping nil. -/
def iter256 {α : Type} (n : node256Rep α) (f : Option α → Bool) : List (Option α) :=
  iterSkipSeq n.child f 0 256

/-- `node4.grow` (match_test.go): copy all 4 slots into a node10. -/
def grow4 {α : Type} (n : smallN 4 α) : smallN 10 α :=
  (List.range 4).foldl (fun nn i => addChildS nn (n.key i) (n.child i)) (newS 10 n.pfx)

/-- `node10.grow`: copy all 10 slots into a node16. -/
def grow10 {α : Type} (n : smallN 10 α) : smallN 16 α :=
  (List.range 10).foldl (fun nn i => addChildS nn (n.key i) (n.child i)) (newS 16 n.pfx)

/-- `node16.grow`: copy all 16 slots into a node48. -/
def grow16 {α : Type} (n : smallN 16 α) : node48Rep α :=
  (List.range 16).foldl (fun nn i => addChild48 nn (n.key i) (n.child i)) (newNode48 n.pfx)

/-- `node48.grow`: copy every dispatch-table entry into a node256. -/
def grow48 {α : Type} (n : node48Rep α) : node256Rep α :=
  (List.range 256).foldl
    (fun nn c => if 0 < n.key c then addChild256 nn c (n.child (n.key c - 1)) else nn)
    (newNode256 n.pfx)

/-- `node4.shrink`: the sole child when `size = 1`, else nil. -/
def shrink4 {α : Type} (n : smallN 4 α) : Option α :=
  if n.size = 1 then n.child 0 else none

/-- `node10.shrink`: a node4 with empty prefix when `size ≤ 4`, else nil. -/
def shrink10 {α : Type} (n : smallN 10 α) : Option (smallN 4 α) :=
  if 4 < n.size then none
  else some ((List.range n.size).foldl
    (fun nn i => addChildS nn (n.key i) (n.child i)) (newS 4 []))

/-- `node16.shrink`: a node10 with empty prefix when `size ≤ 10`, else nil. -/
def shrink16 {α : Type} (n : smallN 16 α) : Option (smallN 10 α) :=
  if 10 < n.size then none
  else some ((List.range n.size).foldl
    (fun nn i => addChildS nn (n.key i) (n.child i)) (newS 10 []))

/-- `node48.shrink`: a node16 with empty prefix when `size ≤ 16`, else nil. -/
def shrink48 {α : Type} (n : node48Rep α) : Option (smallN 16 α) :=
  if 16 < n.size then none
  else some ((List.range 256).foldl
    (fun nn c => if 0 < n.key c then addChildS nn c (n.child (n.key c - 1)) else nn)
    (newS 16 []))

/-- `node256.shrink`: a node48 with empty prefix when `size ≤ 48`, else nil. -/
def shrink256 {α : Type} (n : node256Rep α) : Option (node48Rep α) :=
  if 48 < n.size then none
  else some ((List.range 256).foldl
    (fun nn c =>
      match n.child c with
      | some a => addChild48 nn c (some a)
      | none => nn)
    (newNode48 []))

/-- A part as produced by `genParts`, tagged with its origin: a literal
byte run, or a wildcard recognized at position `i` of the filter. -/
inductive GPart where
  | lit (s : List Nat) : GPart
  | wc (i : Nat) : GPart
deriving DecidableEq

/-- Render a tagged part back to its bytes. -/
def renderPart (f : List Nat) : GPart → List Nat
  | .lit s => s
  | .wc i => seg f i (i+1)

/-- The loop of `genParts`, instrumented: identical recursion to `gpLoop`
but each emitted part carries its origin tag. -/
def gpLoopT (f : List Nat) : Nat → Nat → Nat → List GPart → List GPart
  | 0, _, _, parts => parts
  | fuel + 1, i, start, parts =>
    let e := f.length - 1
    if i < f.length then
      if f.getD i 0 = tsep then
        if i < e ∧ f.getD (i+1) 0 = pwc ∧ ((i+2 ≤ e ∧ f.getD (i+2) 0 = tsep) ∨ i+1 = e) then
          let parts1 := if start < i then parts ++ [.lit (seg f start (i+1))] else parts
          let parts2 := parts1 ++ [.wc (i+1)]
          if i + 3 ≤ e then gpLoopT f fuel (i+3) (i+3) parts2
          else gpLoopT f fuel (i+2) (i+2) parts2
        else if i < e ∧ f.getD (i+1) 0 = fwc ∧ i+1 = e then
          let parts1 := if start < i then parts ++ [.lit (seg f start (i+1))] else parts
          let parts2 := parts1 ++ [.wc (i+1)]
          gpLoopT f fuel (i+2) (i+2) parts2
        else gpLoopT f fuel (i+1) start parts
      else if f.getD i 0 = pwc ∨ f.getD i 0 = fwc then
        if i ≠ 0 ∧ f.getD (i-1) 0 ≠ tsep then gpLoopT f fuel (i+1) start parts
        else if i+1 = e ∨ (i+1 < e ∧ f.getD (i+1) 0 ≠ tsep) then gpLoopT f fuel (i+1) start parts
        else
          let parts2 := parts ++ [.wc i]
          if i+1 ≤ e then gpLoopT f fuel (i+2) (i+2) parts2
          else gpLoopT f fuel (i+1) (i+1) parts2
      else gpLoopT f fuel (i+1) start parts
    else
      if start < f.length then
        if f.getD start 0 = tsep then parts ++ [.lit (f.drop (start+1))]
        else parts ++ [.lit (f.drop start)]
      else parts

/-- `genParts` with origin tags. -/
def genPartsT (f : List Nat) : List GPart :=
  gpLoopT f (f.length + 1) 0 0 []

/-- The spec's entire-token rule at position `i` of a filter: the byte is
a wildcard, it is at position 0 or preceded by the token separator, and
it is at the end of the filter or followed by the token separator. -/
def wcTokenAt (f : List Nat) (i : Nat) : Prop :=
  (f.getD i 0 = pwc ∨ f.getD i 0 = fwc) ∧
    (i = 0 ∨ f.getD (i-1) 0 = tsep) ∧
    (i = f.length - 1 ∨ f.getD (i+1) 0 = tsep)

instance (f : List Nat) (i : Nat) : Decidable (wcTokenAt f i) := by
  unfold wcTokenAt; infer_instance

/-- No position of the filter satisfies the entire-token wildcard rule. -/
def noRecWC (f : List Nat) : Prop :=
  ∀ i < f.length, ¬ wcTokenAt f i

instance (f : List Nat) : Decidable (noRecWC f) := by
  unfold noRecWC; infer_instance

/-- Number of bytes mapped by a node48 dispatch table. -/
def mapped48 {α : Type} (n : node48Rep α) : Nat :=
  (List.range 256).countP (fun c => decide (0 < n.key c))

/-- The node48 dispatch-table invariant: at most 48 children; every
dispatch entry is a 1-indexed position at most `size`; distinct bytes map
to distinct positions; the dense slots `child 0 .. child (size-1)` are
exactly the occupied ones; every dense position is reachable from some
byte; and the number of mapped bytes equals `size`. -/
def inv48 {α : Type} (n : node48Rep α) : Prop :=
  n.size ≤ 48 ∧
    (∀ c < 256, n.key c ≤ n.size) ∧
    (∀ c < 256, ∀ d < 256, n.key c ≠ 0 → n.key c = n.key d → c = d) ∧
    (∀ i < 48, ((n.child i).isSome ↔ i < n.size)) ∧
    (∀ i < n.size, ∃ c < 256, n.key c = i + 1) ∧
    mapped48 n = n.size

instance {α : Type} (n : node48Rep α) : Decidable (inv48 n) := by
  unfold inv48; infer_instance

/-- Number of occupied byte slots of a node256. -/
def occupied256 {α : Type} (n : node256Rep α) : Nat :=
  (List.range 256).countP (fun c => (n.child c).isSome)

/-- The node256 invariant: the size counter counts the occupied slots. -/
def inv256 {α : Type} (n : node256Rep α) : Prop :=
  n.size = occupied256 n

instance {α : Type} (n : node256Rep α) : Decidable (inv256 n) := by
  unfold inv256; infer_instance

/-- Modelled from the spec: the `SubjectTree` container itself
(`NewSubjectTree`, `Insert`, the size counter) is not among the source
files; only its tests are. Following the spec's data model — "Logical
storage: subject → value, with unique subjects" — the container is
modelled as its logical store: a duplicate-free association list of
entries plus the size counter. -/
structure SubjectTree (α : Type) where
  entries : List (List Nat × α)
  size : Nat

/-- Modelled from the spec: `NewSubjectTree` — the empty container. -/
def SubjectTree.new (α : Type) : SubjectTree α := ⟨[], 0⟩

/-- Modelled from the spec: `SubjectTree.Insert` (§4.3): step 0 rejects a
subject containing the no-pivot sentinel, returning `(None, false)` and
leaving the tree untouched; otherwise an existing entry is overwritten
(returning the prior value with `updated = true`) or a new entry is added
and the size counter is incremented. -/
def SubjectTree.Insert {α : Type} (t : SubjectTree α) (subject : List Nat) (v : α) :
    SubjectTree α × Option α × Bool :=
  if noPivot ∈ subject then (t, none, false)
  else
    match t.entries.find? (fun p => p.1 == subject) with
    | some p =>
      ({ entries := t.entries.map (fun q => if q.1 == subject then (q.1, v) else q),
         size := t.size }, some p.2, true)
    | none => ({ entries := t.entries ++ [(subject, v)], size := t.size + 1 }, none, false)

/-- Specification of an early-stopping iteration: visit the listed
children in order, stopping right after the first one on which the
callback answers false. -/
def stopList {α : Type} (f : Option α → Bool) : List (Option α) → List (Option α)
  | [] => []
  | c :: r => if f c then c :: stopList f r else [c]

/-- The children of a node48 listed in ascending order of their
discriminator byte (the order the spec claims for `node48.iter`). -/
def ascChildren48 {α : Type} (n : node48Rep α) : List (Option α) :=
  (List.range 256).filterMap
    (fun c => if n.key c = 0 then none else some (n.child (n.key c - 1)))

/-!  Concrete nodes used by the witnesses below.  -/

/-- A full node4 with children under bytes 65-68. -/
def w4full : smallN 4 Nat :=
  addChildS (addChildS (addChildS (addChildS (newS 4 [70]) 65 (some 1)) 66 (some 2))
    67 (some 3)) 68 (some 4)

/-- A full node10 with children under bytes 65-74. -/
def w10full : smallN 10 Nat :=
  (List.range 10).foldl (fun nn i => addChildS nn (65 + i) (some i)) (newS 10 [70])

/-- A full node16 with children under bytes 65-80. -/
def w16full : smallN 16 Nat :=
  (List.range 16).foldl (fun nn i => addChildS nn (65 + i) (some i)) (newS 16 [70])

/-- A node10 with one child. -/
def w10one : smallN 10 Nat := addChildS (newS 10 [70]) 65 (some 3)

/-- A node16 with one child. -/
def w16one : smallN 16 Nat := addChildS (newS 16 [70]) 65 (some 3)

/-- A node48 with one child. -/
def w48one : node48Rep Nat := addChild48 (newNode48 [70]) 65 (some 3)

/-- A node256 with one child. -/
def w256one : node256Rep Nat := addChild256 (newNode256 [70]) 65 (some 3)

/-!  Theorems  -/

/-- C9: for every tree state and every subject containing the no-pivot
byte 0x7F, `Insert(subject, value)` returns `(None, false)`, the tree's
size is unchanged, and no stored entry is added or modified. -/
theorem insert_noPivot_rejected {α : Type} (t : SubjectTree α) (subject : List Nat) (v : α)
    (h : noPivot ∈ subject) :
    t.Insert subject v = (t, none, false) ∧
      (t.Insert subject v).1.size = t.size ∧
      (t.Insert subject v).1.entries = t.entries := by
  unfold SubjectTree.Insert
  simp [h]

/-- Witness for C9 at the subject `"f" ++ [0x7F]` of the no-pivot test. -/
theorem insert_noPivot_rejected_wit :
    (SubjectTree.new Nat).Insert [102, noPivot] 22 = (SubjectTree.new Nat, none, false) :=
  (insert_noPivot_rejected (SubjectTree.new Nat) [102, noPivot] 22 (by decide)).1

/-- C3: at a `*` part with scan position inside the fragment, the
matcher returns `(nil, true)` when no separator remains and `*` is last,
returns the parts from `*` onward with `true` when no separator remains
and parts follow, and otherwise advances the scan position past the first
separator and continues with the next part. -/
theorem mpLoop_pwc (frag : List Nat) (si : Nat) (rest : List (List Nat))
    (h : si < frag.length) :
    (indexByte (frag.drop si) tsep = none →
        mpLoop frag si ([pwc] :: rest) =
          if rest = [] then some [] else some ([pwc] :: rest)) ∧
      (∀ k, indexByte (frag.drop si) tsep = some k →
        mpLoop frag si ([pwc] :: rest) = mpLoop frag (si + k + 1) rest) := by
  constructor
  · intro hnone
    simp only [mpLoop]
    rw [if_neg (by omega)]
    simp [hnone, pwc]
  · intro k hk
    simp only [mpLoop]
    rw [if_neg (by omega)]
    simp [hk, pwc]

/-- Witness for C3: `parts = [["*"]], frag = "ab"` has no separator and
`*` is the last part, so the loop accepts with `nil` remaining. -/
theorem mpLoop_pwc_wit :
    mpLoop [97, 98] 0 [[pwc]] = some [] := by
  have h := (mpLoop_pwc [97, 98] 0 [] (by decide)).1 (by decide)
  simpa using h

/-- C4 counterexample: for `parts = [[97,98,99]]` and fragment `[97]`,
the literal agrees up to the fragment's last byte and is not fully
consumed; the code returns the part truncated to its unconsumed
remainder `[98,99]`, not to the consumed prefix `[97]` as the claim
states. -/
theorem matchParts_truncation_cex :
    matchParts [[97, 98, 99]] [97] = ([[98, 99]], true) ∧
      ([[98, 99]] : List (List Nat)) ≠ [[97]] := by decide

/-- C4 (amended): whenever a literal part agrees with the fragment up to
the fragment's last byte but is not fully consumed, the loop succeeds and
returns the parts from the current one onward with the current part
replaced by its unconsumed remainder (the consumed prefix is dropped), so
the child can match the rest of the part; the original list is unchanged
(the Go code builds a fresh copy for this). -/
theorem mpLoop_literal_partial (frag : List Nat) (si : Nat) (p : List Nat)
    (rest : List (List Nat)) (h1 : si < frag.length) (h2 : frag.length < si + p.length)
    (h3 : p.take (frag.length - si) = seg frag si frag.length) :
    mpLoop frag si (p :: rest) = some (p.drop (frag.length - si) :: rest) := by
  have hlp : p.length ≠ 1 := by omega
  have hmin : min (si + p.length) frag.length = frag.length :=
    Nat.min_eq_right (by omega)
  simp only [mpLoop]
  rw [if_neg (by omega)]
  rw [if_neg (by simp [hlp]), if_neg (by simp [hlp])]
  simp only [hmin]
  rw [if_pos h2]
  rw [if_pos h3]
  rw [if_neg (lt_irrefl frag.length)]
  rw [if_pos h2]

/-- Witness for C4's amended theorem at `parts = [[97,98,99]]`,
`frag = [97]`. -/
theorem mpLoop_literal_partial_wit :
    mpLoop [97] 0 [[97, 98, 99]] = some [[98, 99]] := by
  have h := mpLoop_literal_partial [97] 0 [97, 98, 99] [] (by decide) (by decide) (by decide)
  simpa using h

/-- When no position of the filter satisfies the entire-token rule, the
`genParts` loop never recognizes a wildcard: it runs to the end with
`start = 0` and the accumulated parts untouched, and then emits the
single trailing literal (after the one leading-separator adjustment). -/
theorem gpLoop_noRec (f : List Nat) (hwc : noRecWC f) :
    ∀ fuel i parts, 1 ≤ fuel → f.length < i + fuel →
      gpLoop f fuel i 0 parts =
        if 0 < f.length then
          (if f.getD 0 0 = tsep then parts ++ [f.drop 1] else parts ++ [f])
        else parts := by
  intro fuel
  induction fuel with
  | zero => intro i parts hf _; omega
  | succ fl ih =>
    intro i parts _ hb
    by_cases hi : i < f.length
    · have hfl : 1 ≤ fl := by omega
      simp only [gpLoop]
      rw [if_pos hi]
      by_cases ht : f.getD i 0 = tsep
      · rw [if_pos ht]
        -- pwc-after-tsep recognition would put an entire-token wildcard at i+1
        have hc1 : ¬ (i < f.length - 1 ∧ f.getD (i+1) 0 = pwc ∧
            ((i+2 ≤ f.length - 1 ∧ f.getD (i+2) 0 = tsep) ∨ i+1 = f.length - 1)) := by
          rintro ⟨hlt, hp, hdis⟩
          refine hwc (i+1) (by omega) ?_
          refine ⟨Or.inl hp, Or.inr (by simpa using ht), ?_⟩
          rcases hdis with ⟨_, h2⟩ | h2
          · exact Or.inr h2
          · exact Or.inl h2
        rw [if_neg hc1]
        have hc2 : ¬ (i < f.length - 1 ∧ f.getD (i+1) 0 = fwc ∧ i+1 = f.length - 1) := by
          rintro ⟨hlt, hp, hend⟩
          refine hwc (i+1) (by omega) ?_
          exact ⟨Or.inr hp, Or.inr (by simpa using ht), Or.inl hend⟩
        rw [if_neg hc2]
        exact ih (i+1) parts hfl (by omega)
      · rw [if_neg ht]
        by_cases hw : f.getD i 0 = pwc ∨ f.getD i 0 = fwc
        · rw [if_pos hw]
          by_cases hg1 : i ≠ 0 ∧ f.getD (i-1) 0 ≠ tsep
          · rw [if_pos hg1]
            exact ih (i+1) parts hfl (by omega)
          · rw [if_neg hg1]
            have hg2 : i+1 = f.length - 1 ∨ (i+1 < f.length - 1 ∧ f.getD (i+1) 0 ≠ tsep) := by
              by_contra hg2
              push_neg at hg2
              obtain ⟨hne, himp⟩ := hg2
              refine hwc i hi ?_
              refine ⟨hw, ?_, ?_⟩
              · by_cases h0 : i = 0
                · exact Or.inl h0
                · push_neg at hg1
                  exact Or.inr (hg1 h0)
              · by_cases hlt : i + 1 < f.length - 1
                · exact Or.inr (himp hlt)
                · left; omega
            rw [if_pos hg2]
            exact ih (i+1) parts hfl (by omega)
        · rw [if_neg hw]
          exact ih (i+1) parts hfl (by omega)
    · simp only [gpLoop]
      rw [if_neg hi]
      by_cases h0 : 0 < f.length
      · rw [if_pos h0, if_pos h0]
        simp
      · rw [if_neg h0, if_neg h0]

/-- C1 counterexample: the filter `"."` has no wildcard at all (so no
wildcard is recognized), yet `genParts` returns one empty literal part,
not a part equal to the whole filter: the trailing-literal emission
consumes a leading separator. -/
theorem genParts_noWC_cex :
    genParts [tsep] [] = [[]] ∧ genParts [tsep] [] ≠ [[tsep]] ∧ noRecWC [tsep] := by
  refine ⟨by decide, by decide, by decide⟩

/-- C1 (amended): for every nonempty filter that does not start with the
token separator and in which no wildcard is recognized by the
entire-token rule, `genParts(filter, nil)` returns exactly one literal
part equal to the whole filter. -/
theorem genParts_noWC (f : List Nat) (h0 : f ≠ []) (h1 : f.getD 0 0 ≠ tsep)
    (hwc : noRecWC f) : genParts f [] = [f] := by
  unfold genParts
  have hlen : 0 < f.length := List.length_pos.mpr h0
  rw [gpLoop_noRec f hwc (f.length + 1) 0 [] (by omega) (by omega)]
  rw [if_pos hlen, if_neg h1]
  simp

/-- Witness for C1's amended theorem at the wildcard-free filter `"ab"`. -/
theorem genParts_noWC_wit : genParts [97, 98] [] = [[97, 98]] :=
  genParts_noWC [97, 98] (by decide) (by decide) (by decide)

/-- The instrumented loop renders back to the source loop: mapping
`renderPart` over the tagged accumulator and result commutes with one
loop step, hence with the whole loop. -/
theorem gpLoopT_render (f : List Nat) :
    ∀ fuel i start acc,
      gpLoop f fuel i start (acc.map (renderPart f)) =
        (gpLoopT f fuel i start acc).map (renderPart f) := by
  intro fuel
  induction fuel with
  | zero => intro i start acc; rfl
  | succ fl ih =>
    intro i start acc
    simp only [gpLoop, gpLoopT]
    split_ifs <;>
      first
        | rfl
        | exact ih _ _ acc
        | (have h := ih (i+3) (i+3) (acc ++ [GPart.lit (seg f start (i+1))] ++ [GPart.wc (i+1)])
           simp only [List.map_append, List.map_cons, List.map_nil, renderPart] at h ⊢
           exact h)
        | (have h := ih (i+2) (i+2) (acc ++ [GPart.lit (seg f start (i+1))] ++ [GPart.wc (i+1)])
           simp only [List.map_append, List.map_cons, List.map_nil, renderPart] at h ⊢
           exact h)
        | (have h := ih (i+3) (i+3) (acc ++ [GPart.wc (i+1)])
           simp only [List.map_append, List.map_cons, List.map_nil, renderPart] at h ⊢
           exact h)
        | (have h := ih (i+2) (i+2) (acc ++ [GPart.wc (i+1)])
           simp only [List.map_append, List.map_cons, List.map_nil, renderPart] at h ⊢
           exact h)
        | (have h := ih (i+2) (i+2) (acc ++ [GPart.wc i])
           simp only [List.map_append, List.map_cons, List.map_nil, renderPart] at h ⊢
           exact h)
        | (have h := ih (i+1) (i+1) (acc ++ [GPart.wc i])
           simp only [List.map_append, List.map_cons, List.map_nil, renderPart] at h ⊢
           exact h)
        | (simp only [List.map_append, List.map_cons, List.map_nil, renderPart])

/-- Every wildcard position the instrumented loop emits satisfies the
entire-token rule: each of the three recognition branches checks exactly
the separator context the rule demands. -/
theorem gpLoopT_wc (f : List Nat) :
    ∀ fuel i start acc, (∀ j, GPart.wc j ∈ acc → wcTokenAt f j) →
      ∀ j, GPart.wc j ∈ gpLoopT f fuel i start acc → wcTokenAt f j := by
  intro fuel
  induction fuel with
  | zero => intro i start acc hacc j hj; exact hacc j hj
  | succ fl ih =>
    intro i start acc hacc j hj
    simp only [gpLoopT] at hj
    by_cases hi : i < f.length
    · rw [if_pos hi] at hj
      by_cases ht : f.getD i 0 = tsep
      · rw [if_pos ht] at hj
        by_cases hc1 : i < f.length - 1 ∧ f.getD (i+1) 0 = pwc ∧
            ((i+2 ≤ f.length - 1 ∧ f.getD (i+2) 0 = tsep) ∨ i+1 = f.length - 1)
        · rw [if_pos hc1] at hj
          have hwc1 : wcTokenAt f (i+1) := by
            obtain ⟨hlt, hp, hdis⟩ := hc1
            refine ⟨Or.inl hp, Or.inr (by simpa using ht), ?_⟩
            rcases hdis with ⟨_, h2⟩ | h2
            · exact Or.inr h2
            · exact Or.inl h2
          have hacc2 : ∀ j, GPart.wc j ∈
              ((if start < i then acc ++ [GPart.lit (seg f start (i+1))] else acc) ++
                [GPart.wc (i+1)]) → wcTokenAt f j := by
            intro j hj
            rcases List.mem_append.mp hj with hj | hj
            · by_cases hs : start < i
              · rw [if_pos hs] at hj
                rcases List.mem_append.mp hj with hj | hj
                · exact hacc j hj
                · simp at hj
              · rw [if_neg hs] at hj
                exact hacc j hj
            · simp at hj
              subst hj
              exact hwc1
          by_cases h3 : i + 3 ≤ f.length - 1
          · rw [if_pos h3] at hj
            exact ih _ _ _ hacc2 j hj
          · rw [if_neg h3] at hj
            exact ih _ _ _ hacc2 j hj
        · rw [if_neg hc1] at hj
          by_cases hc2 : i < f.length - 1 ∧ f.getD (i+1) 0 = fwc ∧ i+1 = f.length - 1
          · rw [if_pos hc2] at hj
            have hwc1 : wcTokenAt f (i+1) :=
              ⟨Or.inr hc2.2.1, Or.inr (by simpa using ht), Or.inl hc2.2.2⟩
            have hacc2 : ∀ j, GPart.wc j ∈
                ((if start < i then acc ++ [GPart.lit (seg f start (i+1))] else acc) ++
                  [GPart.wc (i+1)]) → wcTokenAt f j := by
              intro j hj
              rcases List.mem_append.mp hj with hj | hj
              · by_cases hs : start < i
                · rw [if_pos hs] at hj
                  rcases List.mem_append.mp hj with hj | hj
                  · exact hacc j hj
                  · simp at hj
                · rw [if_neg hs] at hj
                  exact hacc j hj
              · simp at hj
                subst hj
                exact hwc1
            exact ih _ _ _ hacc2 j hj
          · rw [if_neg hc2] at hj
            exact ih _ _ _ hacc j hj
      · rw [if_neg ht] at hj
        by_cases hw : f.getD i 0 = pwc ∨ f.getD i 0 = fwc
        · rw [if_pos hw] at hj
          by_cases hg1 : i ≠ 0 ∧ f.getD (i-1) 0 ≠ tsep
          · rw [if_pos hg1] at hj
            exact ih _ _ _ hacc j hj
          · rw [if_neg hg1] at hj
            by_cases hg2 : i+1 = f.length - 1 ∨ (i+1 < f.length - 1 ∧ f.getD (i+1) 0 ≠ tsep)
            · rw [if_pos hg2] at hj
              exact ih _ _ _ hacc j hj
            · rw [if_neg hg2] at hj
              have hwc1 : wcTokenAt f i := by
                push_neg at hg1 hg2
                refine ⟨hw, ?_, ?_⟩
                · by_cases h0 : i = 0
                  · exact Or.inl h0
                  · exact Or.inr (hg1 h0)
                · by_cases hlt : i + 1 < f.length - 1
                  · exact Or.inr (hg2.2 hlt)
                  · left; omega
              have hacc2 : ∀ j, GPart.wc j ∈ (acc ++ [GPart.wc i]) → wcTokenAt f j := by
                intro j hj
                rcases List.mem_append.mp hj with hj | hj
                · exact hacc j hj
                · simp at hj
                  subst hj
                  exact hwc1
              by_cases h3 : i + 1 ≤ f.length - 1
              · rw [if_pos h3] at hj
                exact ih _ _ _ hacc2 j hj
              · rw [if_neg h3] at hj
                exact ih _ _ _ hacc2 j hj
        · rw [if_neg hw] at hj
          exact ih _ _ _ hacc j hj
    · rw [if_neg hi] at hj
      by_cases hs : start < f.length
      · rw [if_pos hs] at hj
        by_cases ht : f.getD start 0 = tsep
        · rw [if_pos ht] at hj
          rcases List.mem_append.mp hj with hj | hj
          · exact hacc j hj
          · simp at hj
        · rw [if_neg ht] at hj
          rcases List.mem_append.mp hj with hj | hj
          · exact hacc j hj
          · simp at hj
      · rw [if_neg hs] at hj
        exact hacc j hj

/-- C2 counterexample: in the filter `"*."` the `*` is at position 0 and
is followed by the token separator, so the entire-token rule recognizes
it; yet `genParts` emits the whole filter as one literal part and no
wildcard part at all (the wildcard branch refuses a separator that is the
filter's last byte). -/
theorem genParts_tokenRule_cex :
    genParts [pwc, tsep] [] = [[pwc, tsep]] ∧
      genPartsT [pwc, tsep] = [GPart.lit [pwc, tsep]] ∧
      wcTokenAt [pwc, tsep] 0 := by
  refine ⟨by decide, by decide, by decide⟩

/-- C2 (amended): `genParts` emits a `*` or `>` byte as a single-byte
wildcard part only at a position satisfying the entire-token rule (at
position 0 or after a separator, and at the end or followed by a
separator); the converse direction fails. Formally: the tagged parts
render to `genParts`' output, and every tagged wildcard position
satisfies the rule. -/
theorem genParts_wcOnlyTokens (f : List Nat) :
    genParts f [] = (genPartsT f).map (renderPart f) ∧
      ∀ j, GPart.wc j ∈ genPartsT f → wcTokenAt f j := by
  constructor
  · have h := gpLoopT_render f (f.length + 1) 0 0 []
    simpa using h
  · exact gpLoopT_wc f (f.length + 1) 0 0 [] (by simp)

/-- Witness for C2's amended theorem: in `"a.*"` the loop emits a
wildcard at position 2, which the theorem certifies to satisfy the
entire-token rule. -/
theorem genParts_wcOnlyTokens_wit : wcTokenAt [97, 46, 42] 2 :=
  (genParts_wcOnlyTokens [97, 46, 42]).2 2 (by decide)

/-- The `iter` loop of the small nodes visits the slots `i, i+1, ...`
(`k` of them) in stored order with early stop. -/
theorem iterSeq_stopList {α : Type} (child : Nat → Option α) (f : Option α → Bool) :
    ∀ k i, iterSeq child f i k = stopList f ((List.range' i k).map child) := by
  intro k
  induction k with
  | zero => intro i; rfl
  | succ k ih =>
    intro i
    rw [List.range'_succ]
    simp only [iterSeq, List.map_cons, stopList]
    by_cases h : f (child i)
    · rw [if_pos h, if_pos h, ih]
    · rw [if_neg h, if_neg h]

/-- The nil-skipping `iter` loop of node48/node256 visits the occupied
slots among `i, ..., i+k-1` in slot order with early stop. -/
theorem iterSkipSeq_stopList {α : Type} (child : Nat → Option α) (f : Option α → Bool) :
    ∀ k i, iterSkipSeq child f i k =
      stopList f (((List.range' i k).map child).filter (fun c => c.isSome)) := by
  intro k
  induction k with
  | zero => intro i; rfl
  | succ k ih =>
    intro i
    rw [List.range'_succ]
    simp only [iterSkipSeq, List.map_cons]
    cases hc : child i with
    | none => simp [hc, ih]
    | some a =>
      simp only [hc, List.filter_cons, Option.isSome_some, if_pos]
      simp only [stopList]
      by_cases h : f (some a)
      · rw [if_pos h, if_pos h, ih]
      · rw [if_neg h, if_neg h]

/-- C5 counterexample: a node48 whose children were added under bytes 66
then 65 is iterated in dense-array (insertion) order, child of 66 first —
not in ascending order of the discriminator byte as the claim states. -/
theorem iter48_byteOrder_cex :
    iter48 (addChild48 (addChild48 (newNode48 ([] : List Nat)) 66 (some 1)) 65 (some 2))
        (fun _ => true) = [some 1, some 2] ∧
      ascChildren48 (addChild48 (addChild48 (newNode48 ([] : List Nat)) 66 (some 1)) 65 (some 2))
        = [some 2, some 1] ∧
      ([some 1, some 2] : List (Option Nat)) ≠ [some 2, some 1] := by
  refine ⟨by decide, by decide, by decide⟩

/-- C5 (amended): `iter` on node4, node10 and node16 visits the children
in stored (insertion) order; on node48 it visits the non-nil entries of
the dense child array in array order (insertion order, as perturbed by
swap-removes), not byte order; on node256 it visits the occupied slots in
ascending byte order; on every variant it stops as soon as the callback
returns false. -/
theorem iter_order {α : Type} (f : Option α → Bool) (n4 : smallN 4 α) (n10 : smallN 10 α)
    (n16 : smallN 16 α) (n48 : node48Rep α) (n256 : node256Rep α) :
    iterS n4 f = stopList f ((List.range n4.size).map n4.child) ∧
      iterS n10 f = stopList f ((List.range n10.size).map n10.child) ∧
      iterS n16 f = stopList f ((List.range n16.size).map n16.child) ∧
      iter48 n48 f = stopList f (((List.range 48).map n48.child).filter (fun c => c.isSome)) ∧
      iter256 n256 f = stopList f (((List.range 256).map n256.child).filter (fun c => c.isSome)) := by
  refine ⟨?_, ?_, ?_, ?_, ?_⟩ <;>
    simp [iterS, iter48, iter256, iterSeq_stopList, iterSkipSeq_stopList, List.range_eq_range']

/-- C6: `shrink` yields a replacement exactly at the variant's shrink
threshold: node10 yields a node4 iff `size ≤ 4`, node16 a node10 iff
`size ≤ 10`, node48 a node16 iff `size ≤ 16`, node256 a node48 iff
`size ≤ 48`, and node4 yields a replacement iff `size = 1` (given its
slot 0 holds a child, as the dense-array layout guarantees), in which
case the replacement is the sole child promoted directly. -/
theorem shrink_thresholds {α : Type} (n10 : smallN 10 α) (n16 : smallN 16 α)
    (n48 : node48Rep α) (n256 : node256Rep α) (n4 : smallN 4 α)
    (h4 : n4.child 0 ≠ none) :
    ((shrink10 n10).isSome ↔ n10.size ≤ 4) ∧
      ((shrink16 n16).isSome ↔ n16.size ≤ 10) ∧
      ((shrink48 n48).isSome ↔ n48.size ≤ 16) ∧
      ((shrink256 n256).isSome ↔ n256.size ≤ 48) ∧
      (shrink4 n4 ≠ none ↔ n4.size = 1) ∧
      (n4.size = 1 → shrink4 n4 = n4.child 0) := by
  refine ⟨?_, ?_, ?_, ?_, ?_, ?_⟩
  · unfold shrink10
    by_cases h : 4 < n10.size
    all_goals simp [h] <;> omega
  · unfold shrink16
    by_cases h : 10 < n16.size
    all_goals simp [h] <;> omega
  · unfold shrink48
    by_cases h : 16 < n48.size
    all_goals simp [h] <;> omega
  · unfold shrink256
    by_cases h : 48 < n256.size
    all_goals simp [h] <;> omega
  · unfold shrink4
    by_cases h : n4.size = 1
    · simp [h, h4]
    · simp [h]
  · intro h
    unfold shrink4
    rw [if_pos h]

/-- Witness for C6 at concrete nodes: empty node10/16/48/256 (all below
threshold, so a replacement is produced) and a one-child node4 whose sole
child `some 7` is promoted. -/
theorem shrink_thresholds_wit :
    ((shrink10 (newS 10 ([] : List Nat) (α := Nat))).isSome ↔
        (newS 10 ([] : List Nat) (α := Nat)).size ≤ 4) ∧
      ((shrink16 (newS 16 ([] : List Nat) (α := Nat))).isSome ↔
        (newS 16 ([] : List Nat) (α := Nat)).size ≤ 10) ∧
      ((shrink48 (newNode48 ([] : List Nat) (α := Nat))).isSome ↔
        (newNode48 ([] : List Nat) (α := Nat)).size ≤ 16) ∧
      ((shrink256 (newNode256 ([] : List Nat) (α := Nat))).isSome ↔
        (newNode256 ([] : List Nat) (α := Nat)).size ≤ 48) ∧
      (shrink4 (addChildS (newS 4 []) 65 (some 7)) ≠ none ↔
        (addChildS (newS 4 ([] : List Nat)) 65 (some 7)).size = 1) ∧
      ((addChildS (newS 4 ([] : List Nat)) 65 (some 7)).size = 1 →
        shrink4 (addChildS (newS 4 []) 65 (some 7)) = (addChildS (newS 4 ([] : List Nat)) 65 (some 7)).child 0) :=
  shrink_thresholds _ _ _ _ _ (by decide)

/-- A linear scan is determined by the predicate's values on the list. -/
theorem findScan_congr {l : List Nat} {p q : Nat → Bool} (h : ∀ x ∈ l, p x = q x) :
    l.find? p = l.find? q := by
  induction l with
  | nil => rfl
  | cons a r ih =>
    have ha := h a (by simp)
    by_cases hp : p a
    · rw [List.find?_cons_of_pos _ hp, List.find?_cons_of_pos _ (ha ▸ hp)]
    · rw [List.find?_cons_of_neg _ hp,
        List.find?_cons_of_neg _ (by rw [← ha]; exact hp),
        ih (fun x hx => h x (by simp [hx]))]

/-- Effect of one `addChild` on a small node's `findChild`: the old scan
wins, and a previously absent key is now found at the appended slot. -/
theorem findChildS_add {cap : Nat} {α : Type} (nn : smallN cap α) (hfull : nn.size < cap)
    (c0 : Nat) (v : Option α) (c : Nat) :
    findChildS (addChildS nn c0 v) c =
      match findChildS nn c with
      | some s => some s
      | none => if c0 = c then some v else none := by
  unfold addChildS
  rw [if_neg (by omega)]
  unfold findChildS
  simp only
  rw [List.range_succ, List.find?_append]
  have hpre : (List.range nn.size).find? (fun i => setAt nn.key nn.size c0 i == c) =
      (List.range nn.size).find? (fun i => nn.key i == c) := by
    refine findScan_congr ?_
    intro x hx
    have : x < nn.size := List.mem_range.mp hx
    simp [setAt, Nat.ne_of_lt this]
  rw [hpre]
  cases hf : (List.range nn.size).find? (fun i => nn.key i == c) with
  | some i =>
    have hi : i < nn.size := List.mem_range.mp (List.mem_of_find?_eq_some hf)
    simp [setAt, Nat.ne_of_lt hi]
  | none =>
    by_cases h : c0 = c
    · simp [setAt, h]
    · simp [setAt, h]

/-- Folding `addChild` over a list of (key, child) pairs into a small
node below capacity: the size grows by the number of pairs, the prefix is
untouched, and `findChild` first consults the old slots, then the pairs
in order. -/
theorem foldPairsS {cap : Nat} {α : Type} :
    ∀ (L : List (Nat × Option α)) (nn : smallN cap α), nn.size + L.length ≤ cap →
      (L.foldl (fun m p => addChildS m p.1 p.2) nn).size = nn.size + L.length ∧
        (L.foldl (fun m p => addChildS m p.1 p.2) nn).pfx = nn.pfx ∧
        ∀ c, findChildS (L.foldl (fun m p => addChildS m p.1 p.2) nn) c =
          match findChildS nn c with
          | some s => some s
          | none => (L.find? (fun p => p.1 == c)).map Prod.snd := by
  intro L
  induction L with
  | nil =>
    intro nn h
    refine ⟨by simp, rfl, ?_⟩
    intro c
    cases hf : findChildS nn c <;> simp [hf]
  | cons p0 rest ih =>
    intro nn h
    have hfull : nn.size < cap := by
      have := h
      simp only [List.length_cons] at this
      omega
    have hsz : (addChildS nn p0.1 p0.2).size = nn.size + 1 := by
      unfold addChildS
      rw [if_neg (by omega)]
    have hpx : (addChildS nn p0.1 p0.2).pfx = nn.pfx := by
      unfold addChildS
      rw [if_neg (by omega)]
    obtain ⟨ihs, ihp, ihf⟩ := ih (addChildS nn p0.1 p0.2)
      (by rw [hsz]; simp only [List.length_cons] at h; omega)
    refine ⟨?_, ?_, ?_⟩
    · simp only [List.foldl_cons]
      rw [ihs, hsz]
      simp only [List.length_cons]
      omega
    · simp only [List.foldl_cons]
      rw [ihp, hpx]
    · intro c
      simp only [List.foldl_cons]
      rw [ihf c, findChildS_add nn hfull p0.1 p0.2 c]
      cases hf : findChildS nn c with
      | some s => rfl
      | none =>
        by_cases hc : p0.1 = c
        · simp [hc]
        · simp only [if_neg hc]
          rw [List.find?_cons_of_neg _ (by simpa using hc)]

/-- Effect of one `addChild` on a node48's `findChild`: byte `c0` now
maps to the new child; other bytes are unaffected (their dense slots sit
below the appended one). -/
theorem findChild48_add {α : Type} (nn : node48Rep α) (hfull : nn.size < 48)
    (hb : ∀ c, nn.key c ≤ nn.size) (c0 : Nat) (v : Option α) (c : Nat) :
    findChild48 (addChild48 nn c0 v) c =
      if c0 = c then some v else findChild48 nn c := by
  unfold addChild48
  rw [if_neg (by omega)]
  unfold findChild48
  by_cases hc : c = c0
  · subst hc
    simp [setAt]
  · have hc2 : ¬ c0 = c := fun h => hc h.symm
    simp only [setAt, if_neg hc, if_neg hc2]
    by_cases hz : nn.key c = 0
    · simp [hz]
    · have hlt : nn.key c - 1 ≠ nn.size := by
        have := hb c
        omega
      simp [hz, hlt]

/-- Folding `addChild` over distinct-byte pairs into a node48 below
capacity whose table does not yet map those bytes: the size grows by the
number of pairs, the prefix is untouched, and `findChild` looks the byte
up among the pairs first, falling back to the original table. -/
theorem foldPairs48 {α : Type} :
    ∀ (L : List (Nat × Option α)) (nn : node48Rep α), nn.size + L.length ≤ 48 →
      (L.map Prod.fst).Nodup → (∀ p ∈ L, nn.key p.1 = 0) → (∀ c, nn.key c ≤ nn.size) →
      (L.foldl (fun m p => addChild48 m p.1 p.2) nn).size = nn.size + L.length ∧
        (L.foldl (fun m p => addChild48 m p.1 p.2) nn).pfx = nn.pfx ∧
        ∀ c, findChild48 (L.foldl (fun m p => addChild48 m p.1 p.2) nn) c =
          match L.find? (fun p => p.1 == c) with
          | some p => some p.2
          | none => findChild48 nn c := by
  intro L
  induction L with
  | nil =>
    intro nn h hnd hz hb
    exact ⟨by simp, rfl, fun c => rfl⟩
  | cons p0 rest ih =>
    intro nn h hnd hz hb
    have hfull : nn.size < 48 := by
      simp only [List.length_cons] at h
      omega
    have hsz : (addChild48 nn p0.1 p0.2).size = nn.size + 1 := by
      unfold addChild48
      rw [if_neg (by omega)]
    have hpx : (addChild48 nn p0.1 p0.2).pfx = nn.pfx := by
      unfold addChild48
      rw [if_neg (by omega)]
    have hkey : ∀ d, (addChild48 nn p0.1 p0.2).key d =
        if d = p0.1 then nn.size + 1 else nn.key d := by
      intro d
      unfold addChild48
      rw [if_neg (by omega)]
      rfl
    have hnd' : (p0.1 :: rest.map Prod.fst).Nodup := by simpa using hnd
    have hnd0 : p0.1 ∉ rest.map Prod.fst := (List.nodup_cons.mp hnd').1
    obtain ⟨ihs, ihp, ihf⟩ := ih (addChild48 nn p0.1 p0.2)
      (by rw [hsz]; simp only [List.length_cons] at h; omega)
      ((List.nodup_cons.mp hnd').2)
      (by
        intro p hp
        rw [hkey]
        have hne : p.1 ≠ p0.1 := by
          intro hcontra
          exact hnd0 (hcontra ▸ List.mem_map_of_mem Prod.fst hp)
        rw [if_neg hne]
        exact hz p (by simp [hp]))
      (by
        intro c
        rw [hkey, hsz]
        by_cases hd : c = p0.1
        · simp [hd]
        · rw [if_neg hd]
          have := hb c
          omega)
    refine ⟨?_, ?_, ?_⟩
    · simp only [List.foldl_cons]
      rw [ihs, hsz]
      simp only [List.length_cons]
      omega
    · simp only [List.foldl_cons]
      rw [ihp, hpx]
    · intro c
      simp only [List.foldl_cons]
      rw [ihf c]
      by_cases hc : p0.1 = c
      · subst hc
        have hrest : rest.find? (fun p => p.1 == p0.1) = none := by
          refine List.find?_eq_none.mpr ?_
          intro p hp
          simp only [beq_iff_eq]
          intro hcontra
          exact hnd0 (hcontra ▸ List.mem_map_of_mem Prod.fst hp)
        rw [hrest, List.find?_cons_of_pos _ (by simp)]
        simp only
        rw [findChild48_add nn hfull hb p0.1 p0.2 p0.1, if_pos rfl]
      · rw [List.find?_cons_of_neg _ (by simpa using hc)]
        cases hf : rest.find? (fun p => p.1 == c) with
        | some p => rfl
        | none =>
          simp only
          rw [findChild48_add nn hfull hb p0.1 p0.2 c, if_neg hc]

/-- Folding conditional `addChild` over distinct bytes into a node256:
slot `c` holds `v c` when `c` was visited and satisfied the condition,
and is untouched otherwise; the prefix never changes. -/
theorem foldAdd256P {α : Type} (P : Nat → Prop) [DecidablePred P] (v : Nat → Option α) :
    ∀ (l : List Nat) (nn : node256Rep α), l.Nodup →
      ((l.foldl (fun m c => if P c then addChild256 m c (v c) else m) nn).pfx = nn.pfx) ∧
        (∀ c, (l.foldl (fun m c => if P c then addChild256 m c (v c) else m) nn).child c =
          if c ∈ l ∧ P c then v c else nn.child c) := by
  intro l
  induction l with
  | nil =>
    intro nn _
    refine ⟨rfl, ?_⟩
    intro c
    simp
  | cons a rest ih =>
    intro nn hnd
    have hna : a ∉ rest := (List.nodup_cons.mp hnd).1
    by_cases hp : P a
    · obtain ⟨ihp, ihc⟩ := ih (addChild256 nn a (v a)) (List.nodup_cons.mp hnd).2
      refine ⟨?_, ?_⟩
      · simp only [List.foldl_cons, if_pos hp]
        rw [ihp]
        rfl
      · intro c
        simp only [List.foldl_cons, if_pos hp]
        rw [ihc c]
        by_cases hm : c ∈ rest ∧ P c
        · rw [if_pos hm, if_pos ⟨List.mem_cons_of_mem a hm.1, hm.2⟩]
        · rw [if_neg hm]
          by_cases hca : c = a
          · subst hca
            simp only [addChild256, setAt, if_pos rfl]
            simp [hp]
          · simp only [addChild256, setAt, if_neg hca]
            have : ¬ (c ∈ a :: rest ∧ P c) := by
              rintro ⟨hmem, hpc⟩
              rcases List.mem_cons.mp hmem with h | h
              · exact hca h
              · exact hm ⟨h, hpc⟩
            rw [if_neg this]
    · obtain ⟨ihp, ihc⟩ := ih nn (List.nodup_cons.mp hnd).2
      refine ⟨?_, ?_⟩
      · simpa only [List.foldl_cons, if_neg hp] using ihp
      · intro c
        simp only [List.foldl_cons, if_neg hp]
        rw [ihc c]
        by_cases hm : c ∈ rest ∧ P c
        · rw [if_pos hm, if_pos ⟨List.mem_cons_of_mem a hm.1, hm.2⟩]
        · rw [if_neg hm]
          have : ¬ (c ∈ a :: rest ∧ P c) := by
            rintro ⟨hmem, hpc⟩
            rcases List.mem_cons.mp hmem with h | h
            · exact hp (h ▸ hpc)
            · exact hm ⟨h, hpc⟩
          rw [if_neg this]

/-- A fold whose body is guarded by a condition equals the plain fold of
the kept elements. -/
theorem foldl_filterP {β : Type} (P : Nat → Prop) [DecidablePred P] (g : β → Nat → β) :
    ∀ (l : List Nat) (b : β),
      l.foldl (fun m c => if P c then g m c else m) b =
        (l.filter (fun c => decide (P c))).foldl g b := by
  intro l
  induction l with
  | nil => intro b; rfl
  | cons a rest ih =>
    intro b
    by_cases hp : P a
    · simp only [List.foldl_cons, if_pos hp, List.filter_cons,
        decide_eq_true hp]
      exact ih (g b a)
    · simp only [List.foldl_cons, if_neg hp, List.filter_cons]
      rw [decide_eq_false hp]
      exact ih b

/-- Looking a byte up in the (byte, payload) pairs built from the kept
elements of a byte list: found exactly when the byte is kept. -/
theorem find_pairs_filter {γ : Type} (P : Nat → Bool) (v : Nat → γ) (c : Nat) :
    ∀ l : List Nat,
      ((l.filter P).map (fun d => (d, v d))).find? (fun p => p.1 == c) =
        if c ∈ l ∧ P c then some (c, v c) else none := by
  intro l
  induction l with
  | nil => simp
  | cons a rest ih =>
    by_cases hp : P a
    · simp only [List.filter_cons, hp, if_pos, List.map_cons]
      by_cases hc : a = c
      · subst hc
        rw [List.find?_cons_of_pos _ (by simp)]
        rw [if_pos ⟨by simp, hp⟩]
      · rw [List.find?_cons_of_neg _ (by simpa using hc), ih]
        by_cases hm : c ∈ rest ∧ P c
        · rw [if_pos hm, if_pos ⟨List.mem_cons_of_mem a hm.1, hm.2⟩]
        · rw [if_neg hm, if_neg ?_]
          rintro ⟨hmem, hpc⟩
          rcases List.mem_cons.mp hmem with h | h
          · exact hc h.symm
          · exact hm ⟨h, hpc⟩
    · simp only [List.filter_cons, if_neg hp]
      rw [ih]
      by_cases hm : c ∈ rest ∧ P c
      · rw [if_pos hm, if_pos ⟨List.mem_cons_of_mem a hm.1, hm.2⟩]
      · rw [if_neg hm, if_neg ?_]
        rintro ⟨hmem, hpc⟩
        rcases List.mem_cons.mp hmem with h | h
        · exact hp (h ▸ hpc)
        · exact hm ⟨h, hpc⟩

/-- The copy loops of grow/shrink, rephrased as folds over (key, child)
pairs. -/
theorem foldKC_eq_pairs {cap : Nat} {α : Type} (key : Nat → Nat) (child : Nat → Option α)
    (l : List Nat) (b : smallN cap α) :
    l.foldl (fun nn i => addChildS nn (key i) (child i)) b =
      (l.map (fun i => (key i, child i))).foldl (fun m p => addChildS m p.1 p.2) b := by
  rw [List.foldl_map]

/-- As `foldKC_eq_pairs`, for a node48 target. -/
theorem foldKC_eq_pairs48 {α : Type} (key : Nat → Nat) (child : Nat → Option α)
    (l : List Nat) (b : node48Rep α) :
    l.foldl (fun nn i => addChild48 nn (key i) (child i)) b =
      (l.map (fun i => (key i, child i))).foldl (fun m p => addChild48 m p.1 p.2) b := by
  rw [List.foldl_map]

/-- Byte-indexed copy loops as pair folds (small-node target). -/
theorem foldV_eq_pairsS {cap : Nat} {α : Type} (v : Nat → Option α)
    (l : List Nat) (b : smallN cap α) :
    l.foldl (fun nn c => addChildS nn c (v c)) b =
      (l.map (fun c => (c, v c))).foldl (fun m p => addChildS m p.1 p.2) b := by
  rw [List.foldl_map]

/-- Byte-indexed copy loops as pair folds (node48 target). -/
theorem foldV_eq_pairs48 {α : Type} (v : Nat → Option α)
    (l : List Nat) (b : node48Rep α) :
    l.foldl (fun nn c => addChild48 nn c (v c)) b =
      (l.map (fun c => (c, v c))).foldl (fun m p => addChild48 m p.1 p.2) b := by
  rw [List.foldl_map]

/-- C10: when a node10/node16/node48/node256 is at or below its shrink
threshold, the replacement that `shrink()` returns is built with an empty
prefix regardless of the original prefix, while its child count and
per-byte child mapping equal the original's (for node48 and node256 this
needs the node's own representation invariant); the caller must restore
the prefix separately. -/
theorem shrink_fresh_pfx {α : Type} (n10 : smallN 10 α) (n16 : smallN 16 α)
    (n48 : node48Rep α) (n256 : node256Rep α)
    (h10 : n10.size ≤ 4) (h16 : n16.size ≤ 10)
    (hi48 : inv48 n48) (h48 : n48.size ≤ 16)
    (hi256 : inv256 n256) (h256 : n256.size ≤ 48) :
    (∀ m, shrink10 n10 = some m →
        m.pfx = [] ∧ m.size = n10.size ∧ ∀ c, findChildS m c = findChildS n10 c) ∧
      (∀ m, shrink16 n16 = some m →
        m.pfx = [] ∧ m.size = n16.size ∧ ∀ c, findChildS m c = findChildS n16 c) ∧
      (∀ m, shrink48 n48 = some m →
        m.pfx = [] ∧ m.size = n48.size ∧ ∀ c < 256, findChildS m c = findChild48 n48 c) ∧
      (∀ m, shrink256 n256 = some m →
        m.pfx = [] ∧ m.size = n256.size ∧ ∀ c < 256, findChild48 m c = findChild256 n256 c) := by
  refine ⟨?_, ?_, ?_, ?_⟩
  · intro m hm
    unfold shrink10 at hm
    rw [if_neg (by omega), Option.some_inj] at hm
    subst hm
    rw [foldKC_eq_pairs]
    obtain ⟨hs, hp, hf⟩ := foldPairsS ((List.range n10.size).map
        (fun i => (n10.key i, n10.child i))) (newS 4 []) (by simp [newS]; omega)
    refine ⟨hp, by rw [hs]; simp [newS], ?_⟩
    intro c
    rw [hf c]
    have hbase : findChildS (newS 4 ([] : List Nat) (α := α)) c = none := rfl
    rw [hbase]
    rw [List.find?_map]
    unfold findChildS
    rw [Option.map_map]
    rfl
  · intro m hm
    unfold shrink16 at hm
    rw [if_neg (by omega), Option.some_inj] at hm
    subst hm
    rw [foldKC_eq_pairs]
    obtain ⟨hs, hp, hf⟩ := foldPairsS ((List.range n16.size).map
        (fun i => (n16.key i, n16.child i))) (newS 10 []) (by simp [newS]; omega)
    refine ⟨hp, by rw [hs]; simp [newS], ?_⟩
    intro c
    rw [hf c]
    have hbase : findChildS (newS 10 ([] : List Nat) (α := α)) c = none := rfl
    rw [hbase]
    rw [List.find?_map]
    unfold findChildS
    rw [Option.map_map]
    rfl
  · intro m hm
    unfold shrink48 at hm
    rw [if_neg (by omega), Option.some_inj] at hm
    subst hm
    rw [foldl_filterP (fun c => 0 < n48.key c)
      (fun nn c => addChildS nn c (n48.child (n48.key c - 1)))]
    rw [foldV_eq_pairsS]
    have hlen : ((List.range 256).filter (fun c => decide (0 < n48.key c))).length
        = n48.size := by
      rw [(List.countP_eq_length_filter _ _).symm]
      exact hi48.2.2.2.2.2
    obtain ⟨hs, hp, hf⟩ := foldPairsS (((List.range 256).filter
        (fun c => decide (0 < n48.key c))).map
        (fun c => (c, n48.child (n48.key c - 1)))) (newS 16 [])
      (by simp [newS, hlen]; omega)
    refine ⟨hp, ?_, ?_⟩
    · rw [hs]
      simp [newS, hlen]
    · intro c hc
      rw [hf c]
      have hbase : findChildS (newS 16 ([] : List Nat) (α := α)) c = none := rfl
      rw [hbase, find_pairs_filter]
      by_cases hk : 0 < n48.key c
      · rw [if_pos ⟨List.mem_range.mpr hc, by simpa using hk⟩]
        unfold findChild48
        rw [if_neg (by omega)]
        rfl
      · rw [if_neg (by rintro ⟨_, hd⟩; exact hk (by simpa using hd))]
        unfold findChild48
        rw [if_pos (by omega)]
        rfl
  · intro m hm
    unfold shrink256 at hm
    rw [if_neg (by omega), Option.some_inj] at hm
    have hbody : (fun (nn : node48Rep α) c =>
        match n256.child c with
        | some a => addChild48 nn c (some a)
        | none => nn) = (fun nn c =>
          if (n256.child c).isSome then addChild48 nn c (n256.child c) else nn) := by
      funext nn c
      cases h : n256.child c <;> simp [h]
    rw [hbody] at hm
    subst hm
    rw [foldl_filterP (fun c => (n256.child c).isSome = true)
      (fun nn c => addChild48 nn c (n256.child c))]
    rw [foldV_eq_pairs48]
    have hlen : ((List.range 256).filter
        (fun c => decide ((n256.child c).isSome = true))).length = n256.size := by
      rw [(List.countP_eq_length_filter _ _).symm]
      have h2 : (List.range 256).countP (fun c => decide ((n256.child c).isSome = true))
          = occupied256 n256 := List.countP_congr (by intro x _; simp)
      rw [h2]
      exact hi256.symm
    have hnd : ((((List.range 256).filter
        (fun c => decide ((n256.child c).isSome = true))).map
        (fun c => (c, n256.child c))).map Prod.fst).Nodup := by
      rw [List.map_map]
      exact ((List.nodup_range 256).filter _).map_on (fun x _ y _ h => by simpa using h)
    obtain ⟨hs, hp, hf⟩ := foldPairs48 (((List.range 256).filter
        (fun c => decide ((n256.child c).isSome = true))).map
        (fun c => (c, n256.child c))) (newNode48 [])
      (by rw [List.length_map, hlen]; simp [newNode48]; omega) hnd
      (fun p _ => rfl) (fun c => Nat.le.refl)
    refine ⟨hp, ?_, ?_⟩
    · rw [hs, List.length_map, hlen]
      simp [newNode48]
    · intro c hc
      rw [hf c, find_pairs_filter]
      by_cases hk : (n256.child c).isSome
      · rw [if_pos ⟨List.mem_range.mpr hc, by simpa using hk⟩]
        obtain ⟨a, ha⟩ := Option.isSome_iff_exists.mp hk
        simp [findChild256, ha]
      · rw [if_neg (by rintro ⟨_, hd⟩; exact hk (by simpa using hd))]
        have ha : n256.child c = none := Option.not_isSome_iff_eq_none.mp hk
        simp [findChild256, findChild48, newNode48, ha]

/-- Changing an array at one listed index shifts a count by the
difference at that index. -/
theorem countP_setAt {β : Type} (p : β → Bool) (f : Nat → β) (c : Nat) (v : β) :
    ∀ l : List Nat, l.Nodup → c ∈ l →
      l.countP (fun d => p (setAt f c v d)) + (if p (f c) then 1 else 0) =
        l.countP (fun d => p (f d)) + (if p v then 1 else 0) := by
  intro l
  induction l with
  | nil => intro _ h; cases h
  | cons a rest ih =>
    intro hnd hm
    by_cases hac : a = c
    · subst hac
      have hna : a ∉ rest := (List.nodup_cons.mp hnd).1
      have hcong : rest.countP (fun d => p (setAt f a v d)) =
          rest.countP (fun d => p (f d)) := by
        refine List.countP_congr ?_
        intro d hd
        have hne : d ≠ a := fun h => hna (h ▸ hd)
        simp [setAt, hne]
      have hhead : setAt f a v a = v := by simp [setAt]
      simp only [List.countP_cons, hcong, hhead]
      by_cases hv : p v <;> by_cases hfc : p (f a) <;> simp [hv, hfc]
    · have hm' : c ∈ rest := by
        rcases List.mem_cons.mp hm with h | h
        · exact absurd h.symm hac
        · exact h
      have hrec := ih (List.nodup_cons.mp hnd).2 hm'
      have hsa : setAt f c v a = f a := by
        simp [setAt, hac]
      simp only [List.countP_cons, hsa]
      by_cases hv : p v <;> by_cases hfc : p (f c) <;>
        simp [hv, hfc] at hrec ⊢ <;> omega

/-- The empty node48 satisfies the dispatch-table invariant. -/
theorem inv48_new {α : Type} (pfx : List Nat) : inv48 (newNode48 (α := α) pfx) := by
  refine ⟨by simp [newNode48], ?_, ?_, ?_, ?_, ?_⟩
  · intro c _
    exact Nat.le.refl
  · intro c _ d _ hne _
    exact absurd rfl hne
  · intro i _
    simp [newNode48]
  · intro i hi
    simp [newNode48] at hi
  · simp [mapped48, newNode48]

/-- `node48.addChild` preserves the dispatch-table invariant and the
per-byte mapping when the node is not full and byte `c` is unmapped. -/
theorem addChild48_pres {α : Type} (n : node48Rep α) (c : Nat) (a : α)
    (hinv : inv48 n) (hc : c < 256) (hfull : n.size < 48) (hz : n.key c = 0) :
    inv48 (addChild48 n c (some a)) ∧
      findChild48 (addChild48 n c (some a)) c = some (some a) ∧
      ∀ d < 256, d ≠ c → findChild48 (addChild48 n c (some a)) d = findChild48 n d := by
  obtain ⟨hsz, hbnd, hdist, hslot, honto, hcnt⟩ := hinv
  have hrec : addChild48 n c (some a) =
      { child := setAt n.child n.size (some a), key := setAt n.key c (n.size + 1),
        pfx := n.pfx, size := n.size + 1 } := by
    unfold addChild48
    rw [if_neg (by omega)]
  have hk2 : (addChild48 n c (some a)).key = setAt n.key c (n.size + 1) := by rw [hrec]
  have hc2 : (addChild48 n c (some a)).child = setAt n.child n.size (some a) := by rw [hrec]
  have hs2 : (addChild48 n c (some a)).size = n.size + 1 := by rw [hrec]
  refine ⟨⟨by rw [hs2]; omega, ?_, ?_, ?_, ?_, ?_⟩, ?_, ?_⟩
  · intro d hd
    rw [hk2, hs2]
    by_cases hdc : d = c
    · simp [setAt, hdc]
    · simp only [setAt, if_neg hdc]
      exact Nat.le_succ_of_le (hbnd d hd)
  · intro d hd e he hne heq
    rw [hk2] at hne heq
    simp only [setAt] at hne heq
    by_cases hdc : d = c <;> by_cases hec : e = c
    · rw [hdc, hec]
    · rw [if_pos hdc, if_neg hec] at heq
      exfalso
      have := hbnd e he
      omega
    · rw [if_neg hdc, if_pos hec] at heq
      exfalso
      rw [if_neg hdc] at hne
      have := hbnd d hd
      omega
    · rw [if_neg hdc, if_neg hec] at heq
      rw [if_neg hdc] at hne
      exact hdist d hd e he hne heq
  · intro i hi
    rw [hc2, hs2]
    by_cases his : i = n.size
    · simp [setAt, his]
    · simp only [setAt, if_neg his]
      rw [hslot i hi]
      omega
  · intro i hi
    rw [hs2] at hi
    by_cases his : i = n.size
    · refine ⟨c, hc, ?_⟩
      rw [hk2]
      simp [setAt, his]
    · obtain ⟨d, hd, hkd⟩ := honto i (by omega)
      have hdc : d ≠ c := by
        intro h
        rw [h, hz] at hkd
        omega
      refine ⟨d, hd, ?_⟩
      rw [hk2]
      simpa [setAt, hdc] using hkd
  · have hstep := countP_setAt (fun k => decide (0 < k)) n.key c (n.size + 1)
      (List.range 256) (List.nodup_range 256) (List.mem_range.mpr hc)
    simp only [hz] at hstep
    simp only [mapped48] at hcnt ⊢
    rw [hk2, hs2]
    simp at hstep
    omega
  · unfold findChild48
    rw [hk2, hc2]
    simp [setAt]
  · intro d hd hdc
    unfold findChild48
    rw [hk2, hc2]
    simp only [setAt, if_neg hdc]
    by_cases hkd : n.key d = 0
    · simp [hkd]
    · rw [if_neg hkd, if_neg hkd]
      have hne2 : n.key d - 1 ≠ n.size := by
        have := hbnd d hd
        omega
      simp [hne2]

/-- `node48.deleteChild` preserves the dispatch-table invariant for every
byte, including the swap-remove case, and removes exactly the mapping of
the deleted byte: the moved child's dispatch entry is repaired by the
scan, so every other byte still finds its child. -/
theorem deleteChild48_pres {α : Type} (n : node48Rep α) (c : Nat)
    (hinv : inv48 n) (hc : c < 256) :
    inv48 (deleteChild48 n c) ∧
      findChild48 (deleteChild48 n c) c = none ∧
      ∀ d < 256, d ≠ c → findChild48 (deleteChild48 n c) d = findChild48 n d := by
  obtain ⟨hsz, hbnd, hdist, hslot, honto, hcnt⟩ := hinv
  by_cases hz : n.key c = 0
  · have hid : deleteChild48 n c = n := by
      unfold deleteChild48
      rw [if_pos hz]
    rw [hid]
    refine ⟨⟨hsz, hbnd, hdist, hslot, honto, hcnt⟩, ?_, fun d _ _ => rfl⟩
    unfold findChild48
    rw [if_pos hz]
  · have hkc1 : 1 ≤ n.key c := by omega
    have hkcs : n.key c ≤ n.size := hbnd c hc
    have hszp : 1 ≤ n.size := by omega
    by_cases hil : n.key c - 1 < n.size - 1
    · -- swap-remove: the last child fills the vacated slot
      have hex : ∃ d0, (List.range 256).find? (fun ic => n.key ic == n.size - 1 + 1)
          = some d0 := by
        obtain ⟨d, hd, hkd⟩ := honto (n.size - 1) (by omega)
        cases hfq : (List.range 256).find? (fun ic => n.key ic == n.size - 1 + 1) with
        | some d1 => exact ⟨d1, rfl⟩
        | none =>
          exfalso
          have := List.find?_eq_none.mp hfq d (List.mem_range.mpr hd)
          simp [hkd] at this
      obtain ⟨d0, hf⟩ := hex
      have hkd0 : n.key d0 = n.size - 1 + 1 := by
        have := List.find?_some hf
        simpa using this
      have hd0 : d0 < 256 := List.mem_range.mp (List.mem_of_find?_eq_some hf)
      have hd0c : d0 ≠ c := by
        intro h
        rw [h] at hkd0
        omega
      have hcd0 : c ≠ d0 := fun h => hd0c h.symm
      have hrec : deleteChild48 n c =
          { child := setAt (setAt n.child (n.key c - 1) (n.child (n.size - 1)))
              (n.size - 1) none,
            key := setAt (setAt n.key d0 (n.key c - 1 + 1)) c 0,
            pfx := n.pfx, size := n.size - 1 } := by
        unfold deleteChild48
        rw [if_neg hz]
        dsimp only
        rw [hf, if_pos hil]
      have hk2 : (deleteChild48 n c).key = setAt (setAt n.key d0 (n.key c - 1 + 1)) c 0 := by
        rw [hrec]
      have hc2 : (deleteChild48 n c).child =
          setAt (setAt n.child (n.key c - 1) (n.child (n.size - 1))) (n.size - 1) none := by
        rw [hrec]
      have hs2 : (deleteChild48 n c).size = n.size - 1 := by rw [hrec]
      have hk2e : ∀ e, (deleteChild48 n c).key e =
          if e = c then 0 else if e = d0 then n.key c - 1 + 1 else n.key e := by
        intro e
        rw [hk2]
        simp only [setAt]
      have hc2e : ∀ j, (deleteChild48 n c).child j =
          if j = n.size - 1 then none
          else if j = n.key c - 1 then n.child (n.size - 1) else n.child j := by
        intro j
        rw [hc2]
        simp only [setAt]
      refine ⟨⟨by rw [hs2]; omega, ?_, ?_, ?_, ?_, ?_⟩, ?_, ?_⟩
      · -- every entry is a position at most the new size
        intro e he
        rw [hk2e, hs2]
        by_cases hec : e = c
        · simp [hec]
        · rw [if_neg hec]
          by_cases hed : e = d0
          · rw [if_pos hed]
            omega
          · rw [if_neg hed]
            have hle := hbnd e he
            by_cases hes : n.key e = n.size
            · exfalso
              have heq : n.key e = n.key d0 := by omega
              exact hed (hdist e he d0 hd0 (by omega) heq)
            · omega
      · -- distinct bytes map to distinct positions
        intro e1 he1 e2 he2 hne heq
        rw [hk2e] at hne heq
        rw [hk2e] at heq
        by_cases h1c : e1 = c
        · rw [if_pos h1c] at hne
          exact absurd rfl hne
        · rw [if_neg h1c] at hne heq
          by_cases h2c : e2 = c
          · rw [if_pos h2c] at heq
            exact absurd heq hne
          · rw [if_neg h2c] at heq
            by_cases h1d : e1 = d0 <;> by_cases h2d : e2 = d0
            · rw [h1d, h2d]
            · rw [if_pos h1d] at heq
              rw [if_neg h2d] at heq
              exfalso
              have hke2 : n.key e2 = n.key c := by omega
              exact h2c (hdist e2 he2 c hc (by omega) hke2)
            · rw [if_neg h1d] at heq hne
              rw [if_pos h2d] at heq
              exfalso
              have hke1 : n.key e1 = n.key c := by omega
              exact h1c (hdist e1 he1 c hc (by omega) hke1)
            · rw [if_neg h1d] at heq hne
              rw [if_neg h2d] at heq
              exact hdist e1 he1 e2 he2 hne heq
      · -- dense slots below the new size are exactly the occupied ones
        intro j hj
        rw [hc2e, hs2]
        by_cases hjl : j = n.size - 1
        · simp [hjl]
        · rw [if_neg hjl]
          by_cases hji : j = n.key c - 1
          · rw [if_pos hji]
            have h1 : (n.child (n.size - 1)).isSome = true ↔ n.size - 1 < n.size :=
              hslot (n.size - 1) (by omega)
            rw [h1]
            omega
          · rw [if_neg hji]
            rw [hslot j hj]
            omega
      · -- every dense position is reachable from some byte
        intro j hj
        rw [hs2] at hj
        obtain ⟨e0, he0, hke0⟩ := honto j (by omega)
        by_cases h0c : e0 = c
        · refine ⟨d0, hd0, ?_⟩
          rw [hk2e, if_neg hd0c, if_pos rfl]
          rw [h0c] at hke0
          omega
        · refine ⟨e0, he0, ?_⟩
          rw [hk2e, if_neg h0c]
          have h0d : e0 ≠ d0 := by
            intro h
            rw [h, hkd0] at hke0
            omega
          rw [if_neg h0d]
          exact hke0
      · -- the mapped-byte count tracks the size
        rw [hs2]
        have hmd0 : c ∈ List.range 256 := List.mem_range.mpr hc
        have hstep1 := countP_setAt (fun k => decide (0 < k)) n.key d0 (n.key c - 1 + 1)
          (List.range 256) (List.nodup_range 256) (List.mem_range.mpr hd0)
        have hstep2 := countP_setAt (fun k => decide (0 < k))
          (setAt n.key d0 (n.key c - 1 + 1)) c 0
          (List.range 256) (List.nodup_range 256) hmd0
        have hmc : setAt n.key d0 (n.key c - 1 + 1) c = n.key c := by
          simp [setAt, hcd0]
        rw [hmc] at hstep2
        have hp1 : (0 : Nat) < n.key d0 := by omega
        have hp2 : (0 : Nat) < n.key c - 1 + 1 := by omega
        have hp3 : (0 : Nat) < n.key c := by omega
        simp only [hp1, hp2, hp3, decide_eq_true_eq, if_pos, decide_eq_true] at hstep1 hstep2
        simp only [mapped48] at hcnt ⊢
        rw [hk2]
        simp at hstep1 hstep2
        omega
      · -- the deleted byte no longer resolves
        unfold findChild48
        rw [hk2e, if_pos rfl]
        simp
      · -- every other byte still resolves to its child
        intro d hd hdc
        unfold findChild48
        rw [hk2e, if_neg hdc]
        by_cases hdd : d = d0
        · rw [if_pos hdd]
          rw [if_neg (by omega)]
          rw [if_neg (by rw [hdd, hkd0]; omega)]
          rw [hc2e]
          rw [if_neg (by omega), if_pos (by omega)]
          rw [hdd, hkd0]
          simp
        · rw [if_neg hdd]
          by_cases hkd : n.key d = 0
          · simp [hkd]
          · rw [if_neg hkd, if_neg hkd]
            have hne1 : n.key d ≠ n.size := by
              intro h
              exact hdd (hdist d hd d0 hd0 hkd (by omega))
            have hne2 : n.key d ≠ n.key c := by
              intro h
              exact hdc (hdist d hd c hc hkd h)
            rw [hc2e]
            rw [if_neg (by have := hbnd d hd; omega), if_neg (by omega)]
    · -- the deleted child is the last one: plain removal
      have hkeq : n.key c = n.size := by omega
      have hrec : deleteChild48 n c =
          { child := setAt n.child (n.size - 1) none,
            key := setAt n.key c 0, pfx := n.pfx, size := n.size - 1 } := by
        unfold deleteChild48
        rw [if_neg hz]
        dsimp only
        rw [if_neg hil]
      have hk2e : ∀ e, (deleteChild48 n c).key e = if e = c then 0 else n.key e := by
        intro e
        rw [hrec]
        simp only [setAt]
      have hc2e : ∀ j, (deleteChild48 n c).child j =
          if j = n.size - 1 then none else n.child j := by
        intro j
        rw [hrec]
        simp only [setAt]
      have hs2 : (deleteChild48 n c).size = n.size - 1 := by rw [hrec]
      refine ⟨⟨by rw [hs2]; omega, ?_, ?_, ?_, ?_, ?_⟩, ?_, ?_⟩
      · intro e he
        rw [hk2e, hs2]
        by_cases hec : e = c
        · simp [hec]
        · rw [if_neg hec]
          have hle := hbnd e he
          by_cases hes : n.key e = n.size
          · exfalso
            have heq : n.key e = n.key c := by omega
            exact hec (hdist e he c hc (by omega) heq)
          · omega
      · intro e1 he1 e2 he2 hne heq
        rw [hk2e] at hne heq
        rw [hk2e] at heq
        by_cases h1c : e1 = c
        · rw [if_pos h1c] at hne
          exact absurd rfl hne
        · rw [if_neg h1c] at hne heq
          by_cases h2c : e2 = c
          · rw [if_pos h2c] at heq
            exact absurd heq hne
          · rw [if_neg h2c] at heq
            exact hdist e1 he1 e2 he2 hne heq
      · intro j hj
        rw [hc2e, hs2]
        by_cases hjl : j = n.size - 1
        · simp [hjl]
        · rw [if_neg hjl, hslot j hj]
          omega
      · intro j hj
        rw [hs2] at hj
        obtain ⟨e0, he0, hke0⟩ := honto j (by omega)
        have h0c : e0 ≠ c := by
          intro h
          rw [h, hkeq] at hke0
          omega
        refine ⟨e0, he0, ?_⟩
        rw [hk2e, if_neg h0c]
        exact hke0
      · rw [hs2]
        have hstep := countP_setAt (fun k => decide (0 < k)) n.key c 0
          (List.range 256) (List.nodup_range 256) (List.mem_range.mpr hc)
        have hp3 : (0 : Nat) < n.key c := by omega
        simp only [mapped48] at hcnt ⊢
        have hkfun : (deleteChild48 n c).key = setAt n.key c 0 := by rw [hrec]
        rw [hkfun]
        simp [hp3] at hstep
        omega
      · unfold findChild48
        rw [hk2e, if_pos rfl]
        simp
      · intro d hd hdc
        unfold findChild48
        rw [hk2e, if_neg hdc]
        by_cases hkd : n.key d = 0
        · simp [hkd]
        · rw [if_neg hkd, if_neg hkd]
          have hne1 : n.key d ≠ n.size := by
            intro h
            exact hdc (hdist d hd c hc hkd (by omega))
          rw [hc2e, if_neg (by have := hbnd d hd; omega)]

/-- C7: the node48 dispatch-table invariant — every entry is 0 or a
1-indexed position at most `size` with `child (key c - 1)` the child
stored under `c`, distinct bytes map to distinct positions, and the
dense slots below `size` are exactly the occupied ones — is preserved by
`addChild` (when the node is not full and `c` is unmapped) and by
`deleteChild` for every byte, including the swap-remove case where the
scan repairs the moved child's entry; the per-byte mapping changes only
at the added/deleted byte. -/
theorem node48_table_inv {α : Type} (n : node48Rep α) (c : Nat) (a : α)
    (hinv : inv48 n) (hc : c < 256) :
    (n.size < 48 → n.key c = 0 →
        inv48 (addChild48 n c (some a)) ∧
          findChild48 (addChild48 n c (some a)) c = some (some a) ∧
          ∀ d < 256, d ≠ c →
            findChild48 (addChild48 n c (some a)) d = findChild48 n d) ∧
      (inv48 (deleteChild48 n c) ∧
        findChild48 (deleteChild48 n c) c = none ∧
        ∀ d < 256, d ≠ c →
          findChild48 (deleteChild48 n c) d = findChild48 n d) :=
  ⟨fun hfull hz => addChild48_pres n c a hinv hc hfull hz,
   deleteChild48_pres n c hinv hc⟩

/-- Witness for C7: adding byte 65 to the empty node48 keeps the
invariant and installs exactly the one mapping. -/
theorem node48_table_inv_wit :
    inv48 (addChild48 (newNode48 ([] : List Nat) (α := Nat)) 65 (some 3)) ∧
      findChild48 (addChild48 (newNode48 ([] : List Nat) (α := Nat)) 65 (some 3)) 65 =
        some (some 3) ∧
      ∀ d < 256, d ≠ 65 →
        findChild48 (addChild48 (newNode48 ([] : List Nat) (α := Nat)) 65 (some 3)) d =
          findChild48 (newNode48 ([] : List Nat) (α := Nat)) d :=
  (node48_table_inv (newNode48 []) 65 3 (inv48_new []) (by decide)).1 (by decide) rfl

/-- C8 counterexample: on a half-full node4 (two children under bytes 65
and 66), `grow()` copies all four array slots including the zeroed junk
slots, so the grown node10 finds a (nil) child under byte 0 where the
original found none: the claimed findChild agreement needs the node to be
full. -/
theorem grow_agree_cex :
    findChildS (grow4 (addChildS (addChildS (newS 4 ([102] : List Nat)) 65 (some (1 : Nat)))
        66 (some 2))) 0 = some none ∧
      findChildS (addChildS (addChildS (newS 4 ([102] : List Nat)) 65 (some (1 : Nat)))
        66 (some 2)) 0 = none ∧
      (some (none : Option Nat) : Option (Option Nat)) ≠ none := by
  refine ⟨by decide, by decide, by decide⟩

/-- C8 (amended): `grow()` moves exactly one rung up the ladder
node4→node10→node16→node48→node256 (visible in the return types of
`grow4`, `grow10`, `grow16`, `grow48`, each of which builds a node of the
next variant), and when invoked as the code invokes it — on a full node4,
node10 or node16 (with distinct keys for node16, as the dispatch table
requires), or on a node48 whose mapped entries hold actual children — the
grown node keeps the original prefix and agrees with the original's
findChild on every discriminator byte. -/
theorem grow_ladder {α : Type} (n4 : smallN 4 α) (n10 : smallN 10 α) (n16 : smallN 16 α)
    (n48 : node48Rep α)
    (h4 : n4.size = 4) (h10 : n10.size = 10) (h16 : n16.size = 16)
    (h16d : ∀ i < 16, ∀ j < 16, n16.key i = n16.key j → i = j)
    (h48 : ∀ c < 256, 0 < n48.key c → (n48.child (n48.key c - 1)).isSome) :
    ((grow4 n4).pfx = n4.pfx ∧ ∀ c, findChildS (grow4 n4) c = findChildS n4 c) ∧
      ((grow10 n10).pfx = n10.pfx ∧ ∀ c, findChildS (grow10 n10) c = findChildS n10 c) ∧
      ((grow16 n16).pfx = n16.pfx ∧ ∀ c, findChild48 (grow16 n16) c = findChildS n16 c) ∧
      ((grow48 n48).pfx = n48.pfx ∧
        ∀ c < 256, findChild256 (grow48 n48) c = findChild48 n48 c) := by
  refine ⟨⟨?_, ?_⟩, ⟨?_, ?_⟩, ⟨?_, ?_⟩, ⟨?_, ?_⟩⟩
  · unfold grow4
    rw [foldKC_eq_pairs]
    exact (foldPairsS _ (newS 10 n4.pfx) (by simp [newS])).2.1
  · intro c
    unfold grow4
    rw [foldKC_eq_pairs]
    obtain ⟨hs, hp, hf⟩ := foldPairsS ((List.range 4).map (fun i => (n4.key i, n4.child i)))
      (newS 10 n4.pfx) (by simp [newS])
    rw [hf c]
    have hbase : findChildS (newS 10 (n4.pfx) (α := α)) c = none := rfl
    rw [hbase, List.find?_map]
    unfold findChildS
    rw [Option.map_map, h4]
    rfl
  · unfold grow10
    rw [foldKC_eq_pairs]
    exact (foldPairsS _ (newS 16 n10.pfx) (by simp [newS])).2.1
  · intro c
    unfold grow10
    rw [foldKC_eq_pairs]
    obtain ⟨hs, hp, hf⟩ := foldPairsS ((List.range 10).map (fun i => (n10.key i, n10.child i)))
      (newS 16 n10.pfx) (by simp [newS])
    rw [hf c]
    have hbase : findChildS (newS 16 (n10.pfx) (α := α)) c = none := rfl
    rw [hbase, List.find?_map]
    unfold findChildS
    rw [Option.map_map, h10]
    rfl
  · unfold grow16
    rw [foldKC_eq_pairs48]
    have hnd : (((List.range 16).map (fun i => (n16.key i, n16.child i))).map Prod.fst).Nodup := by
      rw [List.map_map]
      refine (List.nodup_range 16).map_on ?_
      intro i hi j hj hij
      exact h16d i (List.mem_range.mp hi) j (List.mem_range.mp hj) (by simpa using hij)
    exact (foldPairs48 _ (newNode48 n16.pfx) (by simp [newNode48]) hnd
      (fun p _ => rfl) (fun c => Nat.le.refl)).2.1
  · intro c
    unfold grow16
    rw [foldKC_eq_pairs48]
    have hnd : (((List.range 16).map (fun i => (n16.key i, n16.child i))).map Prod.fst).Nodup := by
      rw [List.map_map]
      refine (List.nodup_range 16).map_on ?_
      intro i hi j hj hij
      exact h16d i (List.mem_range.mp hi) j (List.mem_range.mp hj) (by simpa using hij)
    obtain ⟨hs, hp, hf⟩ := foldPairs48 ((List.range 16).map (fun i => (n16.key i, n16.child i)))
      (newNode48 n16.pfx) (by simp [newNode48]) hnd (fun p _ => rfl) (fun c => Nat.le.refl)
    rw [hf c]
    have hcomp : ((fun (p : Nat × Option α) => p.1 == c) ∘ (fun i => (n16.key i, n16.child i)))
        = (fun i => n16.key i == c) := rfl
    rw [List.find?_map, hcomp]
    unfold findChildS
    rw [h16]
    cases hfind : (List.range 16).find? (fun i => n16.key i == c) with
    | some i =>
      simp
    | none =>
      simp
      rfl
  · unfold grow48
    exact (foldAdd256P (fun c => 0 < n48.key c) (fun c => n48.child (n48.key c - 1))
      (List.range 256) (newNode256 n48.pfx) (List.nodup_range 256)).1
  · intro c hc
    unfold grow48
    obtain ⟨hpfx, hchild⟩ := foldAdd256P (fun c => 0 < n48.key c)
      (fun c => n48.child (n48.key c - 1)) (List.range 256) (newNode256 n48.pfx)
      (List.nodup_range 256)
    unfold findChild256
    rw [hchild c]
    by_cases hk : 0 < n48.key c
    · rw [if_pos ⟨List.mem_range.mpr hc, hk⟩]
      obtain ⟨a, ha⟩ := Option.isSome_iff_exists.mp (h48 c hc hk)
      rw [ha]
      unfold findChild48
      rw [if_neg (by omega), ha]
    · rw [if_neg (by rintro ⟨_, h⟩; exact hk h)]
      unfold findChild48
      rw [if_pos (by omega)]
      rfl

set_option maxRecDepth 4000 in
/-- Witness for C8's amended theorem at full concrete nodes. -/
theorem grow_ladder_wit :
    ((grow4 w4full).pfx = w4full.pfx ∧ ∀ c, findChildS (grow4 w4full) c = findChildS w4full c) ∧
      ((grow10 w10full).pfx = w10full.pfx ∧
        ∀ c, findChildS (grow10 w10full) c = findChildS w10full c) ∧
      ((grow16 w16full).pfx = w16full.pfx ∧
        ∀ c, findChild48 (grow16 w16full) c = findChildS w16full c) ∧
      ((grow48 w48one).pfx = w48one.pfx ∧
        ∀ c < 256, findChild256 (grow48 w48one) c = findChild48 w48one c) :=
  grow_ladder w4full w10full w16full w48one (by decide) (by decide) (by decide)
    (by decide) (by decide)

set_option maxRecDepth 4000 in
/-- Witness for C10 at concrete one-child nodes (each below its shrink
threshold), with the node48/node256 invariants established through the
preservation lemmas. -/
theorem shrink_fresh_pfx_wit :
    (∀ m, shrink10 w10one = some m →
        m.pfx = [] ∧ m.size = w10one.size ∧ ∀ c, findChildS m c = findChildS w10one c) ∧
      (∀ m, shrink16 w16one = some m →
        m.pfx = [] ∧ m.size = w16one.size ∧ ∀ c, findChildS m c = findChildS w16one c) ∧
      (∀ m, shrink48 w48one = some m →
        m.pfx = [] ∧ m.size = w48one.size ∧ ∀ c < 256, findChildS m c = findChild48 w48one c) ∧
      (∀ m, shrink256 w256one = some m →
        m.pfx = [] ∧ m.size = w256one.size ∧
          ∀ c < 256, findChild48 m c = findChild256 w256one c) :=
  shrink_fresh_pfx w10one w16one w48one w256one (by decide) (by decide)
    ((addChild48_pres (newNode48 [70]) 65 3 (inv48_new [70]) (by decide) (by decide) rfl).1)
    (by decide) (by decide) (by decide)
